import Mathlib

/-!
# Verification of the marketing-analyzer content pipeline

A shallow embedding of `src/app.py` (class `WebsiteAnalyzer` and its callers):
text is `List Char`, dictionaries are association lists, the HTTP request and
the OpenAI chat-completion service are oracles passed in as explicit data, and
every function of the pipeline (`scrape_website`, `analyze_content`,
`generate_recommendations`) is a total Lean function over those inputs.
-/

namespace MarketingAnalyzer

/-! ## Basic text operations

Models of the Python string primitives the pipeline uses: `str.strip`,
`str.splitlines` (the source documents only contain `'\n'` line ends, which is
the separator modelled here), `str.split("  ")`, and `"sep".join`.
-/

/-- Python `str.strip()` with no argument removes leading whitespace;
this is the leading half. -/
def stripLeft (s : List Char) : List Char :=
  s.dropWhile Char.isWhitespace

/-- Trailing half of Python `str.strip()`. -/
def stripRight (s : List Char) : List Char :=
  (s.reverse.dropWhile Char.isWhitespace).reverse

/-- Python `str.strip()`: drop whitespace from both ends. -/
def strip (s : List Char) : List Char :=
  stripRight (stripLeft s)

/-- Python `str.split(sep)` for a one-character separator `c`
(used with `'\n'` to model `str.splitlines()` on newline-terminated text). -/
def splitOnChar (c : Char) : List Char → List (List Char)
  | [] => [[]]
  | a :: r =>
    let rest := splitOnChar c r
    if a = c then [] :: rest else (a :: rest.headI) :: rest.tail

/-- Python `str.split("  ")`: greedy left-to-right split at each occurrence of
two consecutive spaces, as in `line.split("  ")` at `app.py:147`. -/
def splitDoubleSpace : List Char → List (List Char)
  | [] => [[]]
  | [a] => [[a]]
  | a :: b :: r =>
    if a = ' ' ∧ b = ' ' then [] :: splitDoubleSpace r
    else (a :: (splitDoubleSpace (b :: r)).headI) :: (splitDoubleSpace (b :: r)).tail

/-- The text cleanup of `app.py:146-148`:

    lines = (line.strip() for line in text_content.splitlines())
    chunks = (phrase.strip() for line in lines for phrase in line.split("  "))
    text_content = ' '.join(chunk for chunk in chunks if chunk)
-/
def cleanText (s : List Char) : List Char :=
  let lines := (splitOnChar '\n' s).map strip
  let chunks := lines.flatMap fun l => (splitDoubleSpace l).map strip
  List.intercalate [' '] (chunks.filter fun c => c ≠ [])

/-- The fixed truncation marker appended at `app.py:195`. -/
def truncationMarker : List Char :=
  "... [content truncated for analysis]".data

/-- The truncation of `app.py:194-195`, generalized over the limit:
`if len(content) > limit: content = content[:limit] + marker`.
`analyze_content` uses it with the hard-coded limit `4000`. -/
def limitContent (limit : Nat) (content : List Char) : List Char :=
  if limit < content.length then content.take limit ++ truncationMarker
  else content

/-- The Normalizer contract of spec §4.2: the whitespace cleanup of
`app.py:146-148` followed by the truncation of `app.py:193-195`. -/
def normalize (content : List Char) (limit : Nat) : List Char :=
  limitContent limit (cleanText content)

/-! ## HTML document model

A parsed BeautifulSoup document: a forest of element and text nodes.
`find` / `find_all` traverse in document (pre-)order; `get_text()`
concatenates the text nodes of a subtree in order; `decompose()` removes a
subtree.
-/

/-- One node of the parsed HTML tree. -/
inductive Node where
  | text (s : List Char)
  | element (tag : String) (attrs : List (String × List Char)) (children : List Node)

/-- A parsed document: the top-level forest of nodes. -/
abbrev Doc := List Node

mutual
/-- Pre-order traversal of one subtree: the node, then its children
left to right (the order BeautifulSoup `find` / `find_all` use). -/
def descendants : Node → List Node
  | .text s => [.text s]
  | .element t a ch => .element t a ch :: descendantsList ch
/-- Pre-order traversal of a forest. -/
def descendantsList : List Node → List Node
  | [] => []
  | n :: ns => descendants n ++ descendantsList ns
end

/-- Pre-order traversal of a document. -/
def preorder (d : Doc) : List Node := descendantsList d

mutual
/-- `soup(...).decompose()` over one node: remove every element whose tag is
in `bad`, together with its whole subtree (`app.py:139-140`). -/
def scrub (bad : List String) : Node → List Node
  | .text s => [.text s]
  | .element t a ch => if t ∈ bad then [] else [.element t a (scrubList bad ch)]
/-- `decompose` over a forest. -/
def scrubList (bad : List String) : List Node → List Node
  | [] => []
  | n :: ns => scrub bad n ++ scrubList bad ns
end

/-- The tags removed before text extraction (`app.py:139`). -/
def badTags : List String := ["script", "style", "nav", "footer"]

/-- The string carried by a text node. -/
def textOf : Node → Option (List Char)
  | .text s => some s
  | .element _ _ _ => none

/-- Whether a node is an element with the given tag. -/
def hasTag (t : String) : Node → Bool
  | .text _ => false
  | .element t' _ _ => t' == t

/-- BeautifulSoup `get_text()` on one node: the concatenation of the strings
of all text nodes of the subtree, in document order. -/
def getText (n : Node) : List Char :=
  ((descendants n).filterMap textOf).flatten

/-- `get_text()` on the whole document. -/
def getTextDoc (d : Doc) : List Char :=
  ((preorder d).filterMap textOf).flatten

/-- `soup.find(tag)`: the first element with the given tag, in document
order. -/
def findTag (t : String) (d : Doc) : Option Node :=
  ((preorder d).filter (hasTag t)).head?

/-- `soup.find_all(tag)`: every element with the given tag, in document
order. -/
def findAllTag (t : String) (d : Doc) : List Node :=
  (preorder d).filter (hasTag t)

/-- Attribute list of an element node (empty for text nodes). -/
def attrsOf : Node → List (String × List Char)
  | .text _ => []
  | .element _ a _ => a

/-- `soup.find('meta', attrs={'name': 'description'})`: the first `meta`
element whose `name` attribute equals `"description"` (`app.py:154`). -/
def findMetaDescription (d : Doc) : Option Node :=
  ((preorder d).filter fun n =>
    hasTag "meta" n && ((attrsOf n).lookup "name" == some "description".data)).head?

/-- `app.py:151-152`: `title.get_text() if title else "No title found"`. -/
def titleText (d : Doc) : List Char :=
  match findTag "title" d with
  | some n => getText n
  | none => "No title found".data

/-- `app.py:154-155`: `meta_desc.get('content') if meta_desc else
"No description found"`.  BeautifulSoup `.get` returns `None` — modelled as
`none` — when the attribute is missing. -/
def descriptionText (d : Doc) : Option (List Char) :=
  match findMetaDescription d with
  | some n => (attrsOf n).lookup "content"
  | none => some "No description found".data

/-- `app.py:157-161`: all `h1` headings, then all `h2`, then all `h3`, each
group in document order, each heading's text stripped; the caller keeps the
first 10 (`app.py:168`). -/
def headingTexts (d : Doc) : List (List Char) :=
  (findAllTag "h1" d ++ findAllTag "h2" d ++ findAllTag "h3" d).map
    fun n => strip (getText n)

/-! ## FetchResult and `scrape_website`

`scrape_website` returns one of two dictionary shapes (`app.py:163-180`):
on success `{success: True, content, title, description, headings,
content_length, status_code}`, on failure `{success: False, error}`.
The outcome of `self.session.get(url, timeout=15, verify=False)` is an input:
either a response (status code and parsed document) or one of the exception
kinds the `except` clauses at `app.py:173-180` catch.
-/

/-- The two dictionary shapes `scrape_website` can return. -/
inductive FetchResult where
  | ok (content : List Char) (title : List Char) (description : Option (List Char))
      (headings : List (List Char)) (content_length : Nat) (status_code : Nat)
  | fail (error : List Char)

/-- The `success` key of the result dictionary. -/
def FetchResult.success : FetchResult → Bool
  | .ok _ _ _ _ _ _ => true
  | .fail _ => false

/-- The `error` key (present exactly on the failure shape). -/
def FetchResult.errorText : FetchResult → List Char
  | .ok _ _ _ _ _ _ => []
  | .fail e => e

/-- The `content` key of a successful result. -/
def FetchResult.contentText : FetchResult → List Char
  | .ok c _ _ _ _ _ => c
  | .fail _ => []

/-- The `title` key of a successful result. -/
def FetchResult.titleField : FetchResult → List Char
  | .ok _ t _ _ _ _ => t
  | .fail _ => []

/-- The `description` key of a successful result (`none` models Python
`None`). -/
def FetchResult.descriptionField : FetchResult → Option (List Char)
  | .ok _ _ de _ _ _ => de
  | .fail _ => none

/-- The `headings` key of a successful result. -/
def FetchResult.headingsField : FetchResult → List (List Char)
  | .ok _ _ _ h _ _ => h
  | .fail _ => []

/-- The `content_length` key of a successful result. -/
def FetchResult.contentLengthField : FetchResult → Nat
  | .ok _ _ _ _ n _ => n
  | .fail _ => 0

/-- Outcome of the single `session.get` call inside `scrape_website`:
a response, or one of the exceptions caught at `app.py:173-180`.
(`exc` covers the final `except Exception` clause.) -/
inductive GetOutcome where
  | response (status : Nat) (doc : Doc)
  | timeout
  | connectionError
  | exc (msg : List Char)

/-- `response.raise_for_status()` raises `HTTPError` exactly for status codes
in `[400, 600)`. -/
def isHTTPErrorStatus (status : Nat) : Prop :=
  400 ≤ status ∧ status < 600

instance (status : Nat) : Decidable (isHTTPErrorStatus status) :=
  inferInstanceAs (Decidable (_ ∧ _))

/-- `WebsiteAnalyzer.scrape_website` (`app.py:128-180`) as a function of the
request outcome.  On a response it runs `raise_for_status`, removes
script/style/nav/footer subtrees, extracts and cleans the visible text, and
assembles the success dictionary; each exception kind maps to the failure
dictionary built by the corresponding `except` clause. -/
def scrape_website (o : GetOutcome) : FetchResult :=
  match o with
  | .timeout => .fail "Website took too long to respond (timeout)".data
  | .connectionError => .fail "Could not connect to website".data
  | .exc msg => .fail ("Unexpected error: ".data ++ msg)
  | .response status doc =>
    if isHTTPErrorStatus status then
      .fail ("HTTP Error: ".data ++ (toString status).data)
    else
      let soup := scrubList badTags doc
      let text_content := cleanText (getTextDoc soup)
      .ok text_content (titleText soup) (descriptionText soup)
        ((headingTexts soup).take 10) text_content.length status

/-! ## The completion capability and the two question batteries

Each loop iteration of `analyze_content` / `generate_recommendations` issues
one `chat.completions.create` call (`app.py:228-236`, `265-273`).  The service
is modelled as an oracle from the request to either the answer text or the
exception message the `except` clause would catch.  Temperatures 0.3 / 0.5 are
recorded in tenths.
-/

/-- One `chat.completions.create` request of the source: the system message,
the user message, `max_tokens`, and `temperature` in tenths. -/
structure CompletionRequest where
  systemMessage : String
  userMessage : List Char
  maxTokens : Nat
  temperatureTenths : Nat
deriving DecidableEq

/-- The completion capability: answer text, or the exception message. -/
abbrev Completion := CompletionRequest → Except (List Char) (List Char)

/-- A value stored in a result dictionary: Python `str` or `int`. -/
inductive Value where
  | str (s : List Char)
  | num (n : Nat)
deriving DecidableEq

/-- `f"{k}: {v}"` rendering of a dictionary value. -/
def Value.toText : Value → List Char
  | .str s => s
  | .num n => (toString n).data

/-- An insertion-ordered Python dict with string keys. -/
abbrev Record := List (String × Value)

/-- The keys of a record, in insertion order. -/
def Record.keys (r : Record) : List String := r.map Prod.fst

/-- The `analysis_tasks` dictionary (`app.py:208-216`). -/
def analysisTasks : List (String × List Char) :=
  [("SEO Keywords", "Extract the 8-10 most important SEO keywords from this website. Focus on terms the site is trying to rank for. Return only keywords separated by commas:".data),
   ("Marketing Strategy", "What is the main marketing strategy or approach? Summarize in 2-3 clear sentences:".data),
   ("Target Audience", "Who is the primary target audience based on the content and messaging? Answer in 1-2 sentences:".data),
   ("Value Proposition", "What is the main value proposition or unique selling point? Answer in 1-2 sentences:".data),
   ("Call-to-Actions", "List the main call-to-action phrases or buttons found. Separate with commas:".data),
   ("Business Type", "What type of business is this? (e.g., SaaS, E-commerce, Agency, etc.) Answer briefly:".data),
   ("Content Themes", "What are the 4-5 main content themes or topics covered? List separated by commas:".data)]

/-- System message of every analysis call (`app.py:231`). -/
def analystSystemMessage : String :=
  "You are a digital marketing analyst. Provide concise, specific, and actionable insights. Focus on what\x27s actually present in the content."

/-- The `structured_content` f-string of `app.py:198-206`, including its
literal indentation.  A `None` description renders as `"None"`, as Python
f-strings do. -/
def structuredContent (url title : List Char) (description : Option (List Char))
    (headings : List (List Char)) (content : List Char) : List Char :=
  "\n        Website: ".data ++ url ++
  "\n        Title: ".data ++ title ++
  "\n        Meta Description: ".data ++
    (match description with | some s => s | none => "None".data) ++
  "\n        Main Headings: ".data ++ List.intercalate ", ".data headings ++
  "\n        \n        Content:\n        ".data ++ content ++
  "\n        ".data

/-- The request one analysis-battery question issues (`app.py:226-236`):
`full_prompt = f"{prompt}\n\n{structured_content}"`, `max_tokens=200`,
`temperature=0.3`. -/
def analysisRequest (prompt structured : List Char) : CompletionRequest :=
  { systemMessage := analystSystemMessage
    userMessage := prompt ++ "\n\n".data ++ structured
    maxTokens := 200
    temperatureTenths := 3 }

/-- The value stored under one analysis key (`app.py:238` / `app.py:241`):
the stripped answer, or `f"Analysis error: {str(e)}"` when the call raised. -/
def taskAnswer (complete : Completion) (req : CompletionRequest) : List Char :=
  match complete req with
  | .ok answer => strip answer
  | .error e => "Analysis error: ".data ++ e

/-- `WebsiteAnalyzer.analyze_content` (`app.py:182-243`), paired with the
number of completion calls it issues.  On a failed fetch it returns the
one-key dictionary `{"error": ...}` and makes no call; otherwise it truncates
the content, builds the structured prompt body, seeds the result dictionary
with `URL`, `Title` and `Content_Length` (length of the untruncated content),
and runs the seven-question battery, each question caught independently. -/
def analyze_content (complete : Completion) (scrape_result : FetchResult)
    (url : List Char) : Record × Nat :=
  match scrape_result with
  | .fail e => ([("error", Value.str e)], 0)
  | .ok content title description headings _ _ =>
    let content' := limitContent 4000 content
    let structured := structuredContent url title description headings content'
    let base : Record :=
      [("URL", Value.str url), ("Title", Value.str title),
       ("Content_Length", Value.num content.length)]
    analysisTasks.foldl
      (fun acc task =>
        (acc.1 ++ [(task.1, Value.str
            (taskAnswer complete (analysisRequest task.2 structured)))],
         acc.2 + 1))
      (base, 0)

/-- The `recommendation_areas` dictionary (`app.py:252-257`). -/
def recommendationAreas : List (String × List Char) :=
  [("🔍 SEO Optimization", "Based on this website analysis, provide 3 specific and actionable SEO improvements. Focus on technical SEO, content optimization, and keyword strategy:".data),
   ("📝 Content Marketing", "Suggest 3 content marketing strategies to improve engagement and attract more visitors:".data),
   ("💼 User Experience", "Recommend 3 UX improvements to enhance user experience and reduce bounce rate:".data),
   ("📈 Conversion Optimization", "Provide 3 conversion rate optimization recommendations to improve lead generation or sales:".data)]

/-- System message of every recommendation call (`app.py:268`). -/
def consultantSystemMessage : String :=
  "You are a senior digital marketing consultant with expertise in SEO, content marketing, and conversion optimization. Provide specific, actionable recommendations that can be implemented immediately."

/-- The `analysis_text` digest of `app.py:249-250`: every entry except
`URL`, `Title`, `Content_Length` and `error`, rendered `f"{k}: {v}"` and
joined with newlines. -/
def analysisDigest (analysis : Record) : List Char :=
  List.intercalate "\n".data
    ((analysis.filter fun kv =>
        kv.1 ∉ (["URL", "Title", "Content_Length", "error"] : List String)).map
      fun kv => kv.1.data ++ ": ".data ++ kv.2.toText)

/-- The request one recommendation category issues (`app.py:263-273`):
`full_prompt = f"{prompt}\n\nWebsite Analysis:\n{analysis_text}"`,
`max_tokens=350`, `temperature=0.5`. -/
def recommendationRequest (prompt digest : List Char) : CompletionRequest :=
  { systemMessage := consultantSystemMessage
    userMessage := prompt ++ "\n\nWebsite Analysis:\n".data ++ digest
    maxTokens := 350
    temperatureTenths := 5 }

/-- The value stored under one recommendation key (`app.py:275` / `278`). -/
def areaAnswer (complete : Completion) (req : CompletionRequest) : List Char :=
  match complete req with
  | .ok answer => strip answer
  | .error e => "Error generating recommendations: ".data ++ e

/-- `WebsiteAnalyzer.generate_recommendations` (`app.py:245-280`), paired
with the number of completion calls it issues: the four-category battery over
the analysis digest, each category caught independently. -/
def generate_recommendations (complete : Completion) (analysis : Record) :
    Record × Nat :=
  let digest := analysisDigest analysis
  recommendationAreas.foldl
    (fun acc area =>
      (acc.1 ++ [(area.1, Value.str
          (areaAnswer complete (recommendationRequest area.2 digest)))],
       acc.2 + 1))
    ([], 0)

/-! ## Shape of cleaned text

Auxiliary predicates used to settle the normalization claims: a cleaned
chunk is nonempty, starts and ends with non-whitespace, and contains neither
a newline nor two adjacent spaces.
-/

/-- Whether the string starts with a whitespace character. -/
def headIsWs : List Char → Bool
  | [] => false
  | a :: _ => a.isWhitespace

/-- The ordered constraint of adjacent characters in cleaned text: never two
spaces in a row. -/
def spacePairOk (a b : Char) : Prop := ¬(a = ' ' ∧ b = ' ')

/-- No two adjacent spaces anywhere in the string. -/
def noDoubleSpace (s : List Char) : Prop := List.Chain' spacePairOk s

/-- Executable form of `noDoubleSpace`. -/
def noDoubleSpaceB : List Char → Bool
  | a :: b :: r => !(a == ' ' && b == ' ') && noDoubleSpaceB (b :: r)
  | _ => true

/-- The invariant of (nonempty) `cleanText` output: no surrounding
whitespace, no newline, no two adjacent spaces. -/
def goodChunk (s : List Char) : Prop :=
  s ≠ [] ∧ headIsWs s = false ∧ headIsWs s.reverse = false
    ∧ '\n' ∉ s ∧ noDoubleSpace s

/-- The nonempty stripped fragments `cleanText` joins with single spaces. -/
def cleanChunks (s : List Char) : List (List Char) :=
  (((splitOnChar '\n' s).map strip).flatMap
    fun l => (splitDoubleSpace l).map strip).filter fun c => c ≠ []

/-! ## Spec-modelled whitespace collapse and word decomposition -/

/-- Modelled from the spec's words for comparison (spec §4.2: "Collapses
sequences of whitespace to single spaces; drops empty fragments"): replace
every maximal whitespace run by a single space, then drop the empty fragments
at both ends. -/
def collapseRuns : List Char → List Char
  | [] => []
  | [c] => if c.isWhitespace then [' '] else [c]
  | a :: b :: r =>
    if a.isWhitespace ∧ b.isWhitespace then collapseRuns (b :: r)
    else (if a.isWhitespace then ' ' else a) :: collapseRuns (b :: r)

/-- The spec's collapse, ends trimmed. -/
def collapseWhitespaceSpec (s : List Char) : List Char :=
  strip (collapseRuns s)

/-- The maximal non-whitespace runs of a string, in order. -/
def tokens : List Char → List (List Char)
  | [] => []
  | c :: s =>
    if c.isWhitespace then tokens s
    else match s with
      | [] => [[c]]
      | d :: _ =>
        if d.isWhitespace then [c] :: tokens s
        else (c :: (tokens s).headI) :: (tokens s).tail

/-! ## Concrete documents and spec-modelled heading order -/

/-- The combined heading predicate. -/
def isHeadingNode (n : Node) : Bool :=
  hasTag "h1" n || hasTag "h2" n || hasTag "h3" n

/-- Modelled from the spec's words for comparison (spec §4.1 (d): "level-1/2/3
heading text in document order, capped at a fixed count"): headings collected
in one pre-order pass over the document. -/
def headingTextsDocumentOrder (d : Doc) : List (List Char) :=
  (((preorder d).filter isHeadingNode).map fun n => strip (getText n)).take 10

/-- A document whose `h2` precedes its `h1`. -/
def headingOrderDoc : Doc :=
  [Node.element "div" []
    [Node.element "h2" [] [Node.text "B".data],
     Node.element "h1" [] [Node.text "A".data]]]

/-- A document with a `meta name="description"` element that has no `content`
attribute. -/
def metaNoContentDoc : Doc :=
  [Node.element "meta" [("name", "description".data)] []]

/-- A document whose visible text contains a tab between two words. -/
def tabDoc : Doc :=
  [Node.element "p" [] [Node.text "a\tb".data]]

/-! ## Claim theorems -/

/-- C1: for every `FetchResult` with `success = false` and error message `e`,
`analyze_content` (with any completion capability and any url) returns exactly
the one-key dictionary `{error: e}` and issues zero completion calls. -/
theorem analyze_content_fail_short_circuits (complete : Completion)
    (e url : List Char) :
    analyze_content complete (.fail e) url = ([("error", Value.str e)], 0) :=
  rfl

/-- C2: on every successful `FetchResult` and for every behaviour of the
completion capability, `analyze_content` issues all 7 analysis calls and
returns a record with every fixed battery key present, where each key's value
is determined by its own call alone — the stripped answer on success, the
`"Analysis error: ..."` string on failure — so one failing call never aborts
the rest of the battery; likewise `generate_recommendations` with its 4 fixed
categories and `"Error generating recommendations: ..."` markers. -/
theorem battery_fully_populated_and_isolated (complete : Completion)
    (content title url : List Char) (description : Option (List Char))
    (headings : List (List Char)) (cl sc : Nat) (analysis : Record) :
    (analyze_content complete (.ok content title description headings cl sc)
        url).1.keys
      = ["URL", "Title", "Content_Length", "SEO Keywords", "Marketing Strategy",
         "Target Audience", "Value Proposition", "Call-to-Actions",
         "Business Type", "Content Themes"]
    ∧ (∀ name prompt, (name, prompt) ∈ analysisTasks →
        (analyze_content complete (.ok content title description headings cl sc)
            url).1.lookup name
          = some (Value.str
              (match complete (analysisRequest prompt
                  (structuredContent url title description headings
                    (limitContent 4000 content))) with
                | .ok answer => strip answer
                | .error e => "Analysis error: ".data ++ e)))
    ∧ (analyze_content complete (.ok content title description headings cl sc)
        url).2 = 7
    ∧ (generate_recommendations complete analysis).1.keys
      = ["🔍 SEO Optimization", "📝 Content Marketing", "💼 User Experience",
         "📈 Conversion Optimization"]
    ∧ (∀ name prompt, (name, prompt) ∈ recommendationAreas →
        (generate_recommendations complete analysis).1.lookup name
          = some (Value.str
              (match complete (recommendationRequest prompt
                  (analysisDigest analysis)) with
                | .ok answer => strip answer
                | .error e => "Error generating recommendations: ".data ++ e)))
    ∧ (generate_recommendations complete analysis).2 = 4 := by
  refine ⟨rfl, ?_, rfl, rfl, ?_, rfl⟩
  · intro name prompt h
    simp only [analysisTasks, List.mem_cons, List.not_mem_nil, or_false] at h
    rcases h with h | h | h | h | h | h | h <;>
      · obtain ⟨rfl, rfl⟩ := Prod.mk.injEq .. ▸ h
        rfl
  · intro name prompt h
    simp only [recommendationAreas, List.mem_cons, List.not_mem_nil,
      or_false] at h
    rcases h with h | h | h | h <;>
      · obtain ⟨rfl, rfl⟩ := Prod.mk.injEq .. ▸ h
        rfl

/-- C2 witness: the battery isolation theorem applied at a concrete failing
oracle and the concrete key `"Target Audience"`. -/
theorem battery_fully_populated_and_isolated_witness :
    ("Target Audience",
      "Who is the primary target audience based on the content and messaging? Answer in 1-2 sentences:".data)
        ∈ analysisTasks
    ∧ (analyze_content (fun _ => Except.error "quota".data)
          (.ok "hi".data "t".data (some "d".data) [] 0 200) "u".data).1.lookup
            "Target Audience"
        = some (Value.str ("Analysis error: ".data ++ "quota".data)) :=
  ⟨by decide,
    (battery_fully_populated_and_isolated (fun _ => Except.error "quota".data)
        "hi".data "t".data "u".data (some "d".data) [] 0 200 []).2.1
      "Target Audience"
      "Who is the primary target audience based on the content and messaging? Answer in 1-2 sentences:".data
      (by decide)⟩

/-- C8 (amended): on every successful fetch the `Content_Length` entry of the
analysis record is the length of the `FetchResult`'s `content` field — the
pre-truncation normalized content; in particular for content
`"Welcome Home About"` it is 18 (not 19 as the spec example states). -/
theorem content_length_is_pre_truncation (complete : Completion)
    (content title url : List Char) (description : Option (List Char))
    (headings : List (List Char)) (cl sc : Nat) :
    (analyze_content complete (.ok content title description headings cl sc)
        url).1.lookup "Content_Length" = some (Value.num content.length)
    ∧ (analyze_content complete
        (.ok "Welcome Home About".data title description headings cl sc)
          url).1.lookup "Content_Length" = some (Value.num 18) :=
  ⟨rfl, rfl⟩

/-- C8 counterexample: at the spec's own example content
`"Welcome Home About"` the record holds `Content_Length = 18`, not the claimed
19. -/
theorem content_length_example_is_18_not_19 :
    (analyze_content (fun _ => Except.error [])
        (.ok "Welcome Home About".data [] (some []) [] 0 200) []).1.lookup
          "Content_Length" = some (Value.num 18)
    ∧ (analyze_content (fun _ => Except.error [])
        (.ok "Welcome Home About".data [] (some []) [] 0 200) []).1.lookup
          "Content_Length" ≠ some (Value.num 19) :=
  ⟨rfl, by decide⟩

/-- C9: the analysis record contains the key `"error"` iff the fetch failed:
a record built from a successful fetch has exactly `URL`, `Title`,
`Content_Length` and the seven task keys and never `"error"`, while a failed
fetch yields exactly `["error"]` — so the caller's `"error" in
analysis_results` test (`app.py:384`) exactly distinguishes fetch failure. -/
theorem error_key_iff_fetch_failed (complete : Completion)
    (scrape_result : FetchResult) (url : List Char) :
    ("error" ∈ (analyze_content complete scrape_result url).1.keys
      ↔ scrape_result.success = false)
    ∧ (scrape_result.success = true →
        (analyze_content complete scrape_result url).1.keys
          = ["URL", "Title", "Content_Length", "SEO Keywords",
             "Marketing Strategy", "Target Audience", "Value Proposition",
             "Call-to-Actions", "Business Type", "Content Themes"])
    ∧ (scrape_result.success = false →
        (analyze_content complete scrape_result url).1.keys = ["error"]) := by
  match scrape_result with
  | .fail e =>
    refine ⟨?_, ?_, fun _ => rfl⟩
    · have hk : (analyze_content complete (.fail e) url).1.keys = ["error"] :=
        rfl
      rw [hk]
      simp [FetchResult.success]
    · intro h
      exact Bool.noConfusion h
  | .ok c t de h cl sc =>
    refine ⟨?_, fun _ => rfl, by simp [FetchResult.success]⟩
    have hk : (analyze_content complete (.ok c t de h cl sc) url).1.keys
        = ["URL", "Title", "Content_Length", "SEO Keywords",
           "Marketing Strategy", "Target Audience", "Value Proposition",
           "Call-to-Actions", "Business Type", "Content Themes"] := rfl
    rw [hk]
    simp [FetchResult.success]

/-- C9 witness: the error-key equivalence applied to a concrete failed fetch
and a concrete successful fetch. -/
theorem error_key_iff_fetch_failed_witness :
    (FetchResult.fail "down".data).success = false
    ∧ (analyze_content (fun _ => Except.error [])
        (.fail "down".data) []).1.keys = ["error"] :=
  ⟨rfl, (error_key_iff_fetch_failed (fun _ => Except.error [])
    (.fail "down".data) []).2.2 rfl⟩

/-- C3: whenever the content is strictly longer than the limit, the truncated
output is the first `limit` characters followed by the fixed truncation
marker — so its length is `limit + length(marker)` and it ends with the
marker; content no longer than the limit passes through unchanged. -/
theorem limitContent_truncates (content : List Char) (limit : Nat) :
    (limit < content.length →
      limitContent limit content = content.take limit ++ truncationMarker
      ∧ (limitContent limit content).length = limit + truncationMarker.length
      ∧ truncationMarker <:+ limitContent limit content)
    ∧ (content.length ≤ limit → limitContent limit content = content) := by
  constructor
  · intro h
    refine ⟨if_pos h, ?_, ?_⟩
    · rw [limitContent, if_pos h, List.length_append, List.length_take]
      omega
    · rw [limitContent, if_pos h]
      exact List.suffix_append _ _
  · intro h
    rw [limitContent, if_neg (by omega)]

/-- C3 witness: truncation at limit 3 and pass-through at limit 10 on the
concrete content `"abcde"`. -/
theorem limitContent_truncates_witness :
    (3 < "abcde".data.length
      ∧ limitContent 3 "abcde".data = "abcde".data.take 3 ++ truncationMarker)
    ∧ ("abcde".data.length ≤ 10 ∧ limitContent 10 "abcde".data = "abcde".data) :=
  ⟨⟨by decide, ((limitContent_truncates "abcde".data 3).1 (by decide)).1⟩,
   ⟨by decide, (limitContent_truncates "abcde".data 10).2 (by decide)⟩⟩

/-- C5: `scrape_website` is a total function of the request outcome — it
never raises — and classifies every failure by cause: timeout, connection
failure, HTTP status error carrying the status code, or a generic unexpected
failure; a non-error response yields a success result. -/
theorem scrape_website_total_and_classified (o : GetOutcome) :
    (o = .timeout →
      scrape_website o = .fail "Website took too long to respond (timeout)".data)
    ∧ (o = .connectionError →
      scrape_website o = .fail "Could not connect to website".data)
    ∧ (∀ msg, o = .exc msg →
      scrape_website o = .fail ("Unexpected error: ".data ++ msg))
    ∧ (∀ status doc, o = .response status doc →
        (isHTTPErrorStatus status →
          scrape_website o = .fail ("HTTP Error: ".data ++ (toString status).data))
        ∧ (¬ isHTTPErrorStatus status → (scrape_website o).success = true)) := by
  refine ⟨fun h => by subst h; rfl, fun h => by subst h; rfl,
    fun msg h => by subst h; rfl, fun status doc h => ?_⟩
  subst h
  constructor
  · intro hs
    simp only [scrape_website, if_pos hs]
  · intro hs
    simp only [scrape_website, if_neg hs, FetchResult.success]

/-- C5 witness: the classification theorem applied to a concrete timeout, a
concrete 404 response and a concrete 200 response. -/
theorem scrape_website_total_and_classified_witness :
    scrape_website .timeout
      = .fail "Website took too long to respond (timeout)".data
    ∧ scrape_website (.response 404 [])
      = .fail ("HTTP Error: ".data ++ (toString 404).data)
    ∧ (scrape_website (.response 200 [])).success = true :=
  ⟨(scrape_website_total_and_classified .timeout).1 rfl,
   ((scrape_website_total_and_classified (.response 404 [])).2.2.2 404 []
      rfl).1 (by decide),
   ((scrape_website_total_and_classified (.response 200 [])).2.2.2 200 []
      rfl).2 (by decide)⟩

/-! ## Headings: grouped-by-level order (C6) -/

/-- Two different tags never match the same node. -/
theorem hasTag_disjoint {t₁ t₂ : String} (hne : t₁ ≠ t₂) (n : Node) :
    ¬(hasTag t₁ n = true ∧ hasTag t₂ n = true) := by
  rintro ⟨h₁, h₂⟩
  cases n with
  | text s => exact Bool.noConfusion h₁
  | element t a ch =>
    simp only [hasTag, beq_iff_eq] at h₁ h₂
    exact hne (h₁ ▸ h₂ ▸ rfl)

/-- Concatenating the filtrations of a list by two disjoint predicates is a
permutation of its filtration by their disjunction. -/
theorem filter_append_filter_perm {α : Type} (p q : α → Bool)
    (hpq : ∀ a, ¬(p a = true ∧ q a = true)) (L : List α) :
    (L.filter p ++ L.filter q).Perm (L.filter fun a => p a || q a) := by
  induction L with
  | nil => simp
  | cons a L ih =>
    by_cases hp : p a = true
    · have hq : q a = false :=
        Bool.eq_false_iff.mpr fun hq => hpq a ⟨hp, hq⟩
      simp only [List.filter_cons, hp, hq, if_true, Bool.false_eq_true,
        if_false, Bool.true_or, List.cons_append]
      exact ih.cons a
    · have hp' : p a = false := Bool.eq_false_iff.mpr hp
      by_cases hq : q a = true
      · simp only [List.filter_cons, hp', hq, Bool.false_eq_true, if_false,
          if_true, Bool.false_or]
        exact List.perm_middle.trans (ih.cons a)
      · have hq' : q a = false := Bool.eq_false_iff.mpr hq
        simpa [List.filter_cons, hp', hq'] using ih

/-- The three grouped `find_all` passes of `app.py:159-161` produce a
permutation of the document-order heading list. -/
theorem findAll_headings_perm_document_order (d : Doc) :
    (findAllTag "h1" d ++ findAllTag "h2" d ++ findAllTag "h3" d).Perm
      ((preorder d).filter isHeadingNode) := by
  have h12 := filter_append_filter_perm (hasTag "h1") (hasTag "h2")
    (hasTag_disjoint (by decide)) (preorder d)
  have h123 := filter_append_filter_perm
    (fun n => hasTag "h1" n || hasTag "h2" n) (hasTag "h3")
    (fun n hn => by
      rcases hn with ⟨h12', h3⟩
      rcases Bool.or_eq_true_iff.mp h12' with h1 | h2
      · exact hasTag_disjoint (by decide) n ⟨h1, h3⟩
      · exact hasTag_disjoint (by decide) n ⟨h2, h3⟩)
    (preorder d)
  unfold findAllTag isHeadingNode
  exact (h12.append_right _).trans h123

/-- C6 counterexample: on a document whose `h2` precedes its `h1`, the
`headings` field lists the `h1` text first — not document order. -/
theorem headings_counterexample_not_document_order :
    (scrape_website (.response 200 headingOrderDoc)).headingsField
      = ["A".data, "B".data]
    ∧ headingTextsDocumentOrder (scrubList badTags headingOrderDoc)
      = ["B".data, "A".data]
    ∧ (scrape_website (.response 200 headingOrderDoc)).headingsField
      ≠ headingTextsDocumentOrder (scrubList badTags headingOrderDoc) := by
  refine ⟨by decide, by decide, by decide⟩

/-- C6 (amended): the `headings` field of a successful fetch holds the
stripped texts of all `h1` elements, then all `h2`, then all `h3`, each group
in document order, capped at the first 10 — a permutation (before the cap) of
the document-order heading list rather than the document-order list itself. -/
theorem headings_grouped_by_level (status : Nat) (doc : Doc)
    (h : ¬ isHTTPErrorStatus status) :
    (scrape_website (.response status doc)).headingsField
      = (headingTexts (scrubList badTags doc)).take 10
    ∧ ((findAllTag "h1" (scrubList badTags doc)
        ++ findAllTag "h2" (scrubList badTags doc)
        ++ findAllTag "h3" (scrubList badTags doc)).Perm
          ((preorder (scrubList badTags doc)).filter isHeadingNode)) := by
  constructor
  · simp only [scrape_website, if_neg h, FetchResult.headingsField]
  · exact findAll_headings_perm_document_order _

/-- C6 witness: the grouped-headings theorem applied to the concrete
out-of-order document at status 200. -/
theorem headings_grouped_by_level_witness :
    (scrape_website (.response 200 headingOrderDoc)).headingsField
      = (headingTexts (scrubList badTags headingOrderDoc)).take 10 :=
  (headings_grouped_by_level 200 headingOrderDoc (by decide)).1

/-! ## Fetch success shape (C10) -/

/-- C10 (amended): a successful `scrape_website` result satisfies
`content_length = length content`; its `title` is always a present string,
`"No title found"` when the document has no title element; its `description`
is the `content` attribute of the first `meta name="description"` element —
which is the absent value `None` when that element lacks a `content`
attribute — or the string `"No description found"` when no such element
exists. -/
theorem fetch_success_shape (status : Nat) (doc : Doc)
    (h : ¬ isHTTPErrorStatus status) :
    (scrape_website (.response status doc)).contentLengthField
      = (scrape_website (.response status doc)).contentText.length
    ∧ (findTag "title" (scrubList badTags doc) = none →
        (scrape_website (.response status doc)).titleField
          = "No title found".data)
    ∧ (findMetaDescription (scrubList badTags doc) = none →
        (scrape_website (.response status doc)).descriptionField
          = some "No description found".data)
    ∧ (∀ n, findMetaDescription (scrubList badTags doc) = some n →
        (scrape_website (.response status doc)).descriptionField
          = (attrsOf n).lookup "content") := by
  refine ⟨?_, ?_, ?_, ?_⟩
  · simp only [scrape_website, if_neg h, FetchResult.contentLengthField,
      FetchResult.contentText]
  · intro ht
    simp only [scrape_website, if_neg h, FetchResult.titleField, titleText, ht]
  · intro hm
    simp only [scrape_website, if_neg h, FetchResult.descriptionField,
      descriptionText, hm]
  · intro n hm
    simp only [scrape_website, if_neg h, FetchResult.descriptionField,
      descriptionText, hm]

/-- C10 counterexample: a successful fetch of a document whose
`meta name="description"` lacks a `content` attribute stores the absent value
`None` as the description — not a string and not the default. -/
theorem description_counterexample_absent :
    (scrape_website (.response 200 metaNoContentDoc)).success = true
    ∧ (scrape_website (.response 200 metaNoContentDoc)).descriptionField = none
    ∧ (none : Option (List Char)) ≠ some "No description found".data := by
  refine ⟨by decide, by decide, by decide⟩

/-- C10 witness: the success-shape theorem applied to the concrete
meta-without-content document at status 200. -/
theorem fetch_success_shape_witness :
    findMetaDescription (scrubList badTags metaNoContentDoc)
      = some (Node.element "meta" [("name", "description".data)] [])
    ∧ (scrape_website (.response 200 metaNoContentDoc)).descriptionField
      = (attrsOf (Node.element "meta" [("name", "description".data)] [])).lookup
          "content" :=
  ⟨rfl,
   (fetch_success_shape 200 metaNoContentDoc (by decide)).2.2.2
     (Node.element "meta" [("name", "description".data)] []) rfl⟩

/-! ## Normalizer idempotence (C4): lemma stack

`cleanText` output is empty or a `goodChunk`, `cleanText` fixes every
`goodChunk`, and appending the truncation marker to a prefix of a
`goodChunk` yields a `goodChunk` again; idempotence of `normalize` follows.
-/

theorem intercalate_single (sep x : List Char) :
    List.intercalate sep [x] = x := by
  simp [List.intercalate]

theorem intercalate_cons₂ (sep x : List Char) {l : List (List Char)}
    (h : l ≠ []) :
    List.intercalate sep (x :: l) = x ++ sep ++ List.intercalate sep l := by
  match l, h with
  | y :: t, _ => simp [List.intercalate, List.flatten]

theorem dropWhile_eq_self_of_headIsWs {s : List Char}
    (h : headIsWs s = false) : s.dropWhile Char.isWhitespace = s := by
  cases s with
  | nil => rfl
  | cons a r =>
    simp only [headIsWs] at h
    simp [List.dropWhile_cons, h]

theorem headIsWs_dropWhile (s : List Char) :
    headIsWs (s.dropWhile Char.isWhitespace) = false := by
  have h := List.head?_dropWhile_not Char.isWhitespace s
  cases hd : (s.dropWhile Char.isWhitespace) with
  | nil => rfl
  | cons a r =>
    rw [hd] at h
    simpa [headIsWs] using h

theorem stripRight_prefix_self (s : List Char) : stripRight s <+: s := by
  rw [stripRight]
  conv_rhs => rw [← s.reverse_reverse]
  exact List.reverse_prefix.mpr (List.dropWhile_suffix _)

theorem stripLeft_suffix (s : List Char) : stripLeft s <:+ s :=
  List.dropWhile_suffix _

theorem strip_infix_self (s : List Char) : strip s <:+: s :=
  ((stripRight_prefix_self (stripLeft s)).isInfix).trans
    (stripLeft_suffix s).isInfix

theorem headIsWs_of_prefix_le {s t : List Char} (h : s <+: t)
    (ht : headIsWs t = false) : headIsWs s = false := by
  cases s with
  | nil => rfl
  | cons a r =>
    obtain ⟨u, hu⟩ := h
    cases t with
    | nil => simp at hu
    | cons b v =>
      obtain rfl : (a = b) := by
        have := congrArg List.head? hu
        simpa using this
      exact ht

theorem strip_headIsWs (s : List Char) : headIsWs (strip s) = false :=
  headIsWs_of_prefix_le (stripRight_prefix_self (stripLeft s)) (headIsWs_dropWhile _)

theorem strip_reverse_headIsWs (s : List Char) :
    headIsWs (strip s).reverse = false := by
  rw [strip, stripRight, List.reverse_reverse]
  exact headIsWs_dropWhile _

theorem strip_eq_self {s : List Char} (h1 : headIsWs s = false)
    (h2 : headIsWs s.reverse = false) : strip s = s := by
  rw [strip, stripLeft, dropWhile_eq_self_of_headIsWs h1, stripRight,
    dropWhile_eq_self_of_headIsWs h2, List.reverse_reverse]

theorem strip_subset (s : List Char) : strip s ⊆ s :=
  (strip_infix_self s).subset

theorem noDoubleSpace_strip {s : List Char} (h : noDoubleSpace s) :
    noDoubleSpace (strip s) :=
  h.infix (strip_infix_self s)

theorem splitOnChar_ne_nil (c : Char) (s : List Char) :
    splitOnChar c s ≠ [] := by
  cases s with
  | nil => simp [splitOnChar]
  | cons a r =>
    by_cases h : a = c <;> simp [splitOnChar, h]

theorem mem_splitOnChar_not_mem {c : Char} {s p : List Char}
    (hp : p ∈ splitOnChar c s) : c ∉ p := by
  induction s generalizing p with
  | nil =>
    simp only [splitOnChar, List.mem_singleton] at hp
    subst hp
    simp
  | cons a r ih =>
    by_cases hac : a = c
    · simp only [splitOnChar, if_pos hac, List.mem_cons] at hp
      rcases hp with rfl | hp
      · simp
      · exact ih hp
    · simp only [splitOnChar, if_neg hac, List.mem_cons] at hp
      rcases hp with rfl | hp
      · intro hmem
        rcases List.mem_cons.mp hmem with rfl | hmem
        · exact hac rfl
        · obtain ⟨h0, t0, hsplit⟩ :
              ∃ h0 t0, splitOnChar c r = h0 :: t0 := by
            cases hs : splitOnChar c r with
            | nil => exact absurd hs (splitOnChar_ne_nil c r)
            | cons h0 t0 => exact ⟨h0, t0, rfl⟩
          rw [hsplit] at hmem
          exact ih (by rw [hsplit]; exact List.mem_cons_self h0 t0) hmem
      · exact ih (List.mem_of_mem_tail hp)

theorem splitOnChar_eq_single {c : Char} {s : List Char} (h : c ∉ s) :
    splitOnChar c s = [s] := by
  induction s with
  | nil => rfl
  | cons a r ih =>
    have hac : ¬ a = c := fun hac => h (hac ▸ List.mem_cons_self a r)
    have hr : c ∉ r := fun hr => h (List.mem_cons_of_mem a hr)
    simp [splitOnChar, if_neg hac, ih hr]

theorem splitDoubleSpace_ne_nil (s : List Char) : splitDoubleSpace s ≠ [] := by
  induction s using splitDoubleSpace.induct with
  | case1 => simp [splitDoubleSpace]
  | case2 a => simp [splitDoubleSpace]
  | case3 a b r h ih => simp [splitDoubleSpace, h]
  | case4 a b r h ih => simp [splitDoubleSpace, h]

/-- The first fragment of a split of a nonempty string is empty or starts
with the string's first character. -/
theorem splitDoubleSpace_headI_shape (a : Char) (r : List Char) :
    (splitDoubleSpace (a :: r)).headI = []
    ∨ ∃ t, (splitDoubleSpace (a :: r)).headI = a :: t := by
  cases r with
  | nil => exact Or.inr ⟨[], rfl⟩
  | cons b r' =>
    by_cases h : a = ' ' ∧ b = ' '
    · left
      simp [splitDoubleSpace, h]
    · right
      exact ⟨(splitDoubleSpace (b :: r')).headI, by simp [splitDoubleSpace, h]⟩

theorem mem_splitDoubleSpace_subset {s p : List Char}
    (hp : p ∈ splitDoubleSpace s) : p ⊆ s := by
  induction s using splitDoubleSpace.induct generalizing p with
  | case1 =>
    simp only [splitDoubleSpace, List.mem_singleton] at hp
    subst hp
    exact fun a ha => ha
  | case2 a =>
    simp only [splitDoubleSpace, List.mem_singleton] at hp
    subst hp
    exact fun a ha => ha
  | case3 a b r h ih =>
    simp only [splitDoubleSpace, if_pos h, List.mem_cons] at hp
    rcases hp with rfl | hp
    · exact fun x hx => absurd hx (List.not_mem_nil x)
    · exact fun x hx => List.mem_cons_of_mem a
        (List.mem_cons_of_mem b (ih hp hx))
  | case4 a b r h ih =>
    simp only [splitDoubleSpace, if_neg h, List.mem_cons] at hp
    obtain ⟨h0, t0, hsplit⟩ :
        ∃ h0 t0, splitDoubleSpace (b :: r) = h0 :: t0 := by
      cases hs : splitDoubleSpace (b :: r) with
      | nil => exact absurd hs (splitDoubleSpace_ne_nil _)
      | cons h0 t0 => exact ⟨h0, t0, rfl⟩
    rcases hp with rfl | hp
    · intro x hx
      rcases List.mem_cons.mp hx with rfl | hx
      · exact List.mem_cons_self x _
      · rw [hsplit] at hx
        exact List.mem_cons_of_mem a
          (ih (by rw [hsplit]; exact List.mem_cons_self h0 t0) hx)
    · rw [hsplit] at hp
      exact fun x hx => List.mem_cons_of_mem a
        (ih (by rw [hsplit]; exact List.mem_cons_of_mem h0 hp) hx)

theorem noDoubleSpace_of_mem_splitDoubleSpace {s p : List Char}
    (hp : p ∈ splitDoubleSpace s) : noDoubleSpace p := by
  induction s using splitDoubleSpace.induct generalizing p with
  | case1 =>
    simp only [splitDoubleSpace, List.mem_singleton] at hp
    subst hp
    exact List.chain'_nil
  | case2 a =>
    simp only [splitDoubleSpace, List.mem_singleton] at hp
    subst hp
    exact List.chain'_singleton a
  | case3 a b r h ih =>
    simp only [splitDoubleSpace, if_pos h, List.mem_cons] at hp
    rcases hp with rfl | hp
    · exact List.chain'_nil
    · exact ih hp
  | case4 a b r h ih =>
    simp only [splitDoubleSpace, if_neg h, List.mem_cons] at hp
    obtain ⟨h0, t0, hsplit⟩ :
        ∃ h0 t0, splitDoubleSpace (b :: r) = h0 :: t0 := by
      cases hs : splitDoubleSpace (b :: r) with
      | nil => exact absurd hs (splitDoubleSpace_ne_nil _)
      | cons h0 t0 => exact ⟨h0, t0, rfl⟩
    have hh0 : h0 ∈ splitDoubleSpace (b :: r) := by
      rw [hsplit]
      exact List.mem_cons_self h0 t0
    rcases hp with rfl | hp
    · rcases splitDoubleSpace_headI_shape b r with hnil | ⟨t, ht⟩
      · rw [hnil]
        exact List.chain'_singleton a
      · have hds : noDoubleSpace ((splitDoubleSpace (b :: r)).headI) := by
          rw [hsplit]
          exact ih hh0
        rw [ht] at hds
        rw [ht]
        exact List.chain'_cons.mpr ⟨h, hds⟩
    · rw [hsplit] at hp
      exact ih (by rw [hsplit]; exact List.mem_cons_of_mem h0 hp)

theorem splitDoubleSpace_eq_single {s : List Char} (h : noDoubleSpace s) :
    splitDoubleSpace s = [s] := by
  induction s using splitDoubleSpace.induct with
  | case1 => rfl
  | case2 a => rfl
  | case3 a b r hab ih =>
    exact absurd (List.chain'_cons.mp h).1 (not_not_intro hab)
  | case4 a b r hab ih =>
    have hbr : noDoubleSpace (b :: r) := (List.chain'_cons.mp h).2
    simp [splitDoubleSpace, if_neg hab, ih hbr]

theorem intercalate_splitDoubleSpace (s : List Char) :
    List.intercalate [' ', ' '] (splitDoubleSpace s) = s := by
  induction s using splitDoubleSpace.induct with
  | case1 => simp [splitDoubleSpace, intercalate_single]
  | case2 a => simp [splitDoubleSpace, intercalate_single]
  | case3 a b r hab ih =>
    obtain ⟨rfl, rfl⟩ := hab
    rw [splitDoubleSpace, if_pos ⟨rfl, rfl⟩,
      intercalate_cons₂ _ _ (splitDoubleSpace_ne_nil r), ih]
    rfl
  | case4 a b r hab ih =>
    obtain ⟨h0, t0, hsplit⟩ :
        ∃ h0 t0, splitDoubleSpace (b :: r) = h0 :: t0 := by
      cases hs : splitDoubleSpace (b :: r) with
      | nil => exact absurd hs (splitDoubleSpace_ne_nil _)
      | cons h0 t0 => exact ⟨h0, t0, rfl⟩
    rw [splitDoubleSpace, if_neg hab, hsplit]
    show List.intercalate [' ', ' '] ((a :: h0) :: t0) = a :: b :: r
    cases t0 with
    | nil =>
      have hh : h0 = b :: r := by
        have h' := ih
        rw [hsplit, intercalate_single] at h'
        exact h'
      rw [intercalate_single, hh]
    | cons u t1 =>
      have hh : h0 ++ [' ', ' '] ++ List.intercalate [' ', ' '] (u :: t1)
          = b :: r := by
        have h' := ih
        rw [hsplit, intercalate_cons₂ _ _ (by simp)] at h'
        exact h'
      rw [intercalate_cons₂ _ _ (by simp)]
      exact congrArg (List.cons a) hh

theorem headIsWs_append_left {c : List Char} (h : c ≠ []) (x : List Char) :
    headIsWs (c ++ x) = headIsWs c := by
  cases c with
  | nil => exact absurd rfl h
  | cons a r => rfl

theorem head?_not_ws {l : List Char} {x : Char} (h : headIsWs l = false)
    (hx : l.head? = some x) : x.isWhitespace = false := by
  cases l with
  | nil => exact absurd hx (by simp)
  | cons a r =>
    obtain rfl : a = x := by simpa using hx
    exact h

theorem getLast?_not_ws {l : List Char} {x : Char}
    (h : headIsWs l.reverse = false) (hx : l.getLast? = some x) :
    x.isWhitespace = false :=
  head?_not_ws h (by rw [List.head?_reverse]; exact hx)

theorem noDoubleSpace_append_sep {c r : List Char} (hc : goodChunk c)
    (hr : goodChunk r) : noDoubleSpace (c ++ ' ' :: r) := by
  rw [noDoubleSpace, List.chain'_append]
  refine ⟨hc.2.2.2.2, ?_, ?_⟩
  · cases r with
    | nil => exact absurd rfl hr.1
    | cons y r' =>
      refine List.chain'_cons.mpr ⟨?_, hr.2.2.2.2⟩
      intro ⟨_, hy⟩
      have := head?_not_ws hr.2.1 (l := y :: r') rfl
      rw [hy] at this
      exact Bool.noConfusion this
  · intro x hx y hy
    obtain rfl : ' ' = y := by simpa using hy
    intro ⟨hx', _⟩
    have := getLast?_not_ws hc.2.2.1 hx
    rw [hx'] at this
    exact Bool.noConfusion this

theorem good_intercalate {cs : List (List Char)} (hne : cs ≠ [])
    (h : ∀ c ∈ cs, goodChunk c) :
    goodChunk (List.intercalate [' '] cs) := by
  induction cs with
  | nil => exact absurd rfl hne
  | cons c cs' ih =>
    cases cs' with
    | nil =>
      rw [intercalate_single]
      exact h c (List.mem_cons_self c [])
    | cons c' cs'' =>
      have hc : goodChunk c := h c (List.mem_cons_self _ _)
      have hrest : goodChunk (List.intercalate [' '] (c' :: cs'')) :=
        ih (by simp) fun d hd => h d (List.mem_cons_of_mem c hd)
      rw [intercalate_cons₂ _ _ (by simp), List.append_assoc]
      have hform : [' '] ++ List.intercalate [' '] (c' :: cs'')
          = ' ' :: List.intercalate [' '] (c' :: cs'') := rfl
      rw [hform]
      refine ⟨by simp [hc.1], ?_, ?_, ?_, ?_⟩
      · rw [headIsWs_append_left hc.1]
        exact hc.2.1
      · rw [List.reverse_append]
        rw [headIsWs_append_left (by simp [hrest.1])]
        have : (' ' :: List.intercalate [' '] (c' :: cs'')).reverse
            = (List.intercalate [' '] (c' :: cs'')).reverse ++ [' '] := by
          simp
        rw [this, headIsWs_append_left (by simp [hrest.1])]
        exact hrest.2.2.1
      · intro hmem
        rcases List.mem_append.mp hmem with hm | hm
        · exact hc.2.2.2.1 hm
        · rcases List.mem_cons.mp hm with hm' | hm'
          · exact absurd hm' (by decide)
          · exact hrest.2.2.2.1 hm'
      · exact noDoubleSpace_append_sep hc hrest

theorem mem_cleanChunks_good {s c : List Char} (hc : c ∈ cleanChunks s) :
    goodChunk c := by
  rw [cleanChunks, List.mem_filter] at hc
  obtain ⟨hmem, hne⟩ := hc
  have hne' : c ≠ [] := by simpa using hne
  rw [List.mem_flatMap] at hmem
  obtain ⟨l, hl, hcl⟩ := hmem
  rw [List.mem_map] at hl
  obtain ⟨l₀, hl₀, rfl⟩ := hl
  rw [List.mem_map] at hcl
  obtain ⟨p, hp, rfl⟩ := hcl
  refine ⟨hne', strip_headIsWs p, strip_reverse_headIsWs p, ?_, ?_⟩
  · intro hmem
    exact mem_splitOnChar_not_mem hl₀
      (strip_subset l₀ (mem_splitDoubleSpace_subset hp (strip_subset p hmem)))
  · exact noDoubleSpace_strip (noDoubleSpace_of_mem_splitDoubleSpace hp)

theorem cleanText_eq_intercalate (s : List Char) :
    cleanText s = List.intercalate [' '] (cleanChunks s) := rfl

theorem cleanText_good (s : List Char) :
    cleanText s = [] ∨ goodChunk (cleanText s) := by
  rw [cleanText_eq_intercalate]
  cases hcs : cleanChunks s with
  | nil => exact Or.inl rfl
  | cons c cs' =>
    right
    exact good_intercalate (by simp) fun d hd =>
      mem_cleanChunks_good (hcs ▸ hd)

theorem cleanText_goodChunk_eq_self {s : List Char} (h : goodChunk s) :
    cleanText s = s := by
  obtain ⟨hne, hh, hr, hnl, hds⟩ := h
  rw [cleanText_eq_intercalate, cleanChunks, splitOnChar_eq_single hnl]
  simp only [List.map_cons, List.map_nil, strip_eq_self hh hr,
    List.flatMap_cons, List.flatMap_nil, splitDoubleSpace_eq_single hds,
    List.append_nil, List.filter_cons, List.filter_nil]
  rw [if_pos (by simpa using hne)]
  exact intercalate_single _ _

theorem cleanText_idempotent (s : List Char) :
    cleanText (cleanText s) = cleanText s := by
  rcases cleanText_good s with h | h
  · rw [h]
    rfl
  · exact cleanText_goodChunk_eq_self h

theorem noDoubleSpaceB_iff (s : List Char) :
    noDoubleSpaceB s = true ↔ noDoubleSpace s := by
  induction s with
  | nil => simp [noDoubleSpaceB, noDoubleSpace]
  | cons a r ih =>
    cases r with
    | nil => simp [noDoubleSpaceB, noDoubleSpace]
    | cons b r' =>
      rw [show noDoubleSpaceB (a :: b :: r')
          = ((!(a == ' ' && b == ' ')) && noDoubleSpaceB (b :: r')) from rfl]
      rw [noDoubleSpace, List.chain'_cons]
      rw [noDoubleSpace] at ih
      simp only [Bool.and_eq_true, Bool.not_eq_true', Bool.and_eq_false_iff,
        beq_iff_eq, beq_eq_false_iff_ne, ih, spacePairOk, not_and]
      tauto

theorem goodChunk_marker : goodChunk truncationMarker := by
  refine ⟨by decide, by decide, by decide, by decide, ?_⟩
  exact (noDoubleSpaceB_iff _).mp (by decide)

theorem goodChunk_take_append_marker {s : List Char} (h : goodChunk s)
    (n : Nat) : goodChunk (s.take n ++ truncationMarker) := by
  cases ht : s.take n with
  | nil => exact goodChunk_marker
  | cons a t =>
    rw [← ht]
    have htp : s.take n <+: s := List.take_prefix n s
    refine ⟨by simp [ht], ?_, ?_, ?_, ?_⟩
    · rw [headIsWs_append_left (by simp [ht])]
      exact headIsWs_of_prefix_le htp h.2.1
    · rw [List.reverse_append]
      rw [headIsWs_append_left (by decide)]
      exact goodChunk_marker.2.2.1
    · intro hmem
      rcases List.mem_append.mp hmem with hm | hm
      · exact h.2.2.2.1 (htp.subset hm)
      · exact goodChunk_marker.2.2.2.1 hm
    · rw [noDoubleSpace, List.chain'_append]
      refine ⟨h.2.2.2.2.take n, goodChunk_marker.2.2.2.2, ?_⟩
      intro x hx y hy
      obtain rfl : '.' = y := by
        rw [show truncationMarker.head? = some '.' from rfl] at hy
        simpa using hy
      intro ⟨_, hdot⟩
      exact absurd hdot (by decide)

/-- C4: the Normalizer — whitespace cleanup followed by
truncation-with-marker — is idempotent at every limit. -/
theorem normalize_idempotent (x : List Char) (L : Nat) :
    normalize (normalize x L) L = normalize x L := by
  show limitContent L (cleanText (limitContent L (cleanText x)))
    = limitContent L (cleanText x)
  by_cases hL : L < (cleanText x).length
  · have h1 : limitContent L (cleanText x)
        = (cleanText x).take L ++ truncationMarker := by
      rw [limitContent, if_pos hL]
    have hgood : goodChunk (cleanText x) := by
      rcases cleanText_good x with h | h
      · rw [h] at hL
        exact absurd hL (by simp)
      · exact h
    have hy : cleanText ((cleanText x).take L ++ truncationMarker)
        = (cleanText x).take L ++ truncationMarker :=
      cleanText_goodChunk_eq_self (goodChunk_take_append_marker hgood L)
    have hlen : ((cleanText x).take L ++ truncationMarker).length
        = L + truncationMarker.length := by
      rw [List.length_append, List.length_take]
      omega
    have htake : ((cleanText x).take L ++ truncationMarker).take L
        = (cleanText x).take L := by
      have hlt : ((cleanText x).take L).length = L := by
        rw [List.length_take]
        omega
      exact List.take_left' hlt
    rw [h1, hy, limitContent, if_pos (by
      rw [hlen]
      have hm : 0 < truncationMarker.length := by decide
      omega), htake]
  · have h1 : limitContent L (cleanText x) = cleanText x := by
      rw [limitContent, if_neg hL]
    rw [h1, cleanText_idempotent, h1]

/-! ## Word decomposition (C7): lemma stack

`tokens` splits a string into its maximal non-whitespace runs.  Both the
code's line-based cleanup (on tab- and carriage-return-free input) and the
spec's whitespace collapse rebuild the string as these runs joined by single
spaces, which yields the refinement `cleanText = collapseWhitespaceSpec` on
that domain.
-/

theorem tokens_cons_ws {c : Char} (s : List Char)
    (h : c.isWhitespace = true) : tokens (c :: s) = tokens s := by
  cases s <;> simp [tokens, h]

theorem tokens_cons_cons_ws {c d : Char} (t : List Char)
    (hc : c.isWhitespace = false) (hd : d.isWhitespace = true) :
    tokens (c :: d :: t) = [c] :: tokens (d :: t) := by
  simp [tokens, hc, hd]

theorem tokens_cons_cons_not_ws {c d : Char} (t : List Char)
    (hc : c.isWhitespace = false) (hd : d.isWhitespace = false) :
    tokens (c :: d :: t)
      = (c :: (tokens (d :: t)).headI) :: (tokens (d :: t)).tail := by
  simp [tokens, hc, hd]

theorem tokens_ne_nil {c : Char} (s : List Char)
    (h : c.isWhitespace = false) : tokens (c :: s) ≠ [] := by
  cases s with
  | nil => simp [tokens, h]
  | cons d t =>
    by_cases hd : d.isWhitespace = true
    · simp [tokens, h, hd]
    · simp [tokens, h, Bool.eq_false_iff.mpr hd]

theorem tokens_append_ws {w : Char} (hw : w.isWhitespace = true)
    (a b : List Char) : tokens (a ++ w :: b) = tokens a ++ tokens b := by
  induction a with
  | nil =>
    rw [List.nil_append, tokens_cons_ws _ hw]
    rfl
  | cons c a' ih =>
    by_cases hc : c.isWhitespace = true
    · rw [List.cons_append, tokens_cons_ws _ hc, tokens_cons_ws _ hc, ih]
    · have hc' : c.isWhitespace = false := Bool.eq_false_iff.mpr hc
      cases a' with
      | nil =>
        show tokens (c :: w :: b) = tokens [c] ++ tokens b
        rw [tokens_cons_cons_ws _ hc' hw, tokens_cons_ws _ hw]
        simp [tokens, hc']
      | cons d a'' =>
        by_cases hd : d.isWhitespace = true
        · rw [List.cons_append, List.cons_append,
            tokens_cons_cons_ws _ hc' hd, ← List.cons_append,
            tokens_cons_cons_ws _ hc' hd, ih, List.cons_append]
        · have hd' : d.isWhitespace = false := Bool.eq_false_iff.mpr hd
          have hne : tokens (d :: a'') ≠ [] := tokens_ne_nil _ hd'
          obtain ⟨t0, ts0, hts⟩ :
              ∃ t0 ts0, tokens (d :: a'') = t0 :: ts0 := by
            cases hx : tokens (d :: a'') with
            | nil => exact absurd hx hne
            | cons t0 ts0 => exact ⟨t0, ts0, rfl⟩
          rw [List.cons_append, List.cons_append,
            tokens_cons_cons_not_ws _ hc' hd', ← List.cons_append,
            tokens_cons_cons_not_ws _ hc' hd', ih, hts]
          simp

theorem tokens_all_ws {s : List Char}
    (h : ∀ c ∈ s, c.isWhitespace = true) : tokens s = [] := by
  induction s with
  | nil => rfl
  | cons c r ih =>
    rw [tokens_cons_ws _ (h c (List.mem_cons_self c r))]
    exact ih fun d hd => h d (List.mem_cons_of_mem c hd)

theorem tokens_append_all_ws {post : List Char} (a : List Char)
    (h : ∀ c ∈ post, c.isWhitespace = true) :
    tokens (a ++ post) = tokens a := by
  cases post with
  | nil => rw [List.append_nil]
  | cons w post' =>
    rw [tokens_append_ws (h w (List.mem_cons_self w post')) a post',
      tokens_all_ws fun d hd => h d (List.mem_cons_of_mem w hd),
      List.append_nil]

theorem tokens_dropWhile_ws (s : List Char) :
    tokens (s.dropWhile Char.isWhitespace) = tokens s := by
  induction s with
  | nil => rfl
  | cons c r ih =>
    by_cases hc : c.isWhitespace = true
    · rw [List.dropWhile_cons, if_pos hc, ih, tokens_cons_ws _ hc]
    · rw [List.dropWhile_cons, if_neg (by simp [Bool.eq_false_iff.mpr hc])]

theorem tokens_strip (s : List Char) : tokens (strip s) = tokens s := by
  have hsr : ∀ x : List Char, tokens (stripRight x) = tokens x := by
    intro x
    have hx : x = stripRight x ++ (x.reverse.takeWhile Char.isWhitespace).reverse := by
      rw [stripRight, ← List.reverse_append, List.takeWhile_append_dropWhile,
        List.reverse_reverse]
    conv_rhs => rw [hx]
    rw [tokens_append_all_ws]
    intro c hc
    rw [List.mem_reverse] at hc
    exact List.mem_takeWhile_imp hc
  rw [strip, hsr, stripLeft, tokens_dropWhile_ws]

theorem mem_splitOnChar_subset {c : Char} {s p : List Char}
    (hp : p ∈ splitOnChar c s) : p ⊆ s := by
  induction s generalizing p with
  | nil =>
    simp only [splitOnChar, List.mem_singleton] at hp
    subst hp
    exact fun a ha => ha
  | cons a r ih =>
    by_cases hac : a = c
    · simp only [splitOnChar, if_pos hac, List.mem_cons] at hp
      rcases hp with rfl | hp
      · exact fun x hx => absurd hx (List.not_mem_nil x)
      · exact fun x hx => List.mem_cons_of_mem a (ih hp hx)
    · simp only [splitOnChar, if_neg hac, List.mem_cons] at hp
      obtain ⟨h0, t0, hsplit⟩ : ∃ h0 t0, splitOnChar c r = h0 :: t0 := by
        cases hs : splitOnChar c r with
        | nil => exact absurd hs (splitOnChar_ne_nil c r)
        | cons h0 t0 => exact ⟨h0, t0, rfl⟩
      rcases hp with rfl | hp
      · intro x hx
        rcases List.mem_cons.mp hx with rfl | hx
        · exact List.mem_cons_self x _
        · rw [hsplit] at hx
          exact List.mem_cons_of_mem a
            (ih (by rw [hsplit]; exact List.mem_cons_self h0 t0) hx)
      · rw [hsplit] at hp
        exact fun x hx => List.mem_cons_of_mem a
          (ih (by rw [hsplit]; exact List.mem_cons_of_mem h0 hp) hx)

theorem intercalate_splitOnChar (c : Char) (s : List Char) :
    List.intercalate [c] (splitOnChar c s) = s := by
  induction s with
  | nil => simp [splitOnChar, intercalate_single]
  | cons a r ih =>
    by_cases hac : a = c
    · subst hac
      rw [splitOnChar, if_pos rfl,
        intercalate_cons₂ _ _ (splitOnChar_ne_nil a r), ih]
      rfl
    · obtain ⟨h0, t0, hsplit⟩ : ∃ h0 t0, splitOnChar c r = h0 :: t0 := by
        cases hs : splitOnChar c r with
        | nil => exact absurd hs (splitOnChar_ne_nil c r)
        | cons h0 t0 => exact ⟨h0, t0, rfl⟩
      rw [splitOnChar, if_neg hac, hsplit]
      show List.intercalate [c] ((a :: h0) :: t0) = a :: r
      cases t0 with
      | nil =>
        have hh : h0 = r := by
          have h' := ih
          rw [hsplit, intercalate_single] at h'
          exact h'
        rw [intercalate_single, hh]
      | cons u t1 =>
        have hh : h0 ++ [c] ++ List.intercalate [c] (u :: t1) = r := by
          have h' := ih
          rw [hsplit, intercalate_cons₂ _ _ (by simp)] at h'
          exact h'
        rw [intercalate_cons₂ _ _ (by simp)]
        exact congrArg (List.cons a) hh

theorem collapseRuns_cons_not_ws {x : Char} (rest : List Char)
    (h : x.isWhitespace = false) :
    collapseRuns (x :: rest) = x :: collapseRuns rest := by
  cases rest with
  | nil => simp [collapseRuns, h]
  | cons b r => simp [collapseRuns, h]

theorem collapseRuns_cons_ws (rest : List Char) :
    ∀ w : Char, w.isWhitespace = true →
      collapseRuns (w :: rest)
        = ' ' :: collapseRuns (rest.dropWhile Char.isWhitespace) := by
  induction rest with
  | nil =>
    intro w hw
    simp [collapseRuns, hw]
  | cons b r ih =>
    intro w hw
    by_cases hb : b.isWhitespace = true
    · rw [show collapseRuns (w :: b :: r) = collapseRuns (b :: r) from
        by simp [collapseRuns, hw, hb]]
      rw [ih b hb, List.dropWhile_cons, if_pos hb]
    · have hb' : b.isWhitespace = false := Bool.eq_false_iff.mpr hb
      rw [show collapseRuns (w :: b :: r) = ' ' :: collapseRuns (b :: r) from
        by simp [collapseRuns, hw, hb']]
      rw [List.dropWhile_cons, if_neg (by simp [hb'])]

theorem collapseRuns_word_append (r : List Char) :
    ∀ w : List Char, (∀ d ∈ w, d.isWhitespace = false) →
      collapseRuns (w ++ r) = w ++ collapseRuns r := by
  intro w
  induction w with
  | nil => intro _; rfl
  | cons x w' ih =>
    intro hall
    rw [List.cons_append,
      collapseRuns_cons_not_ws _ (hall x (List.mem_cons_self x w')),
      ih fun d hd => hall d (List.mem_cons_of_mem x hd), List.cons_append]

theorem stripRight_eq_nil_iff (y : List Char) :
    stripRight y = [] ↔ ∀ c ∈ y, c.isWhitespace = true := by
  rw [stripRight]
  constructor
  · intro h c hc
    have hnil : y.reverse.dropWhile Char.isWhitespace = [] := by
      cases hx : y.reverse.dropWhile Char.isWhitespace with
      | nil => rfl
      | cons a t =>
        rw [hx] at h
        simp at h
    rw [List.dropWhile_eq_nil_iff] at hnil
    exact hnil c (List.mem_reverse.mpr hc)
  · intro h
    rw [List.dropWhile_eq_nil_iff.mpr fun c hc => h c (List.mem_reverse.mp hc)]
    rfl

theorem stripRight_append_of_ne_nil {y : List Char} (x : List Char)
    (h : stripRight y ≠ []) : stripRight (x ++ y) = x ++ stripRight y := by
  have hd : y.reverse.dropWhile Char.isWhitespace ≠ [] := by
    intro hnil
    exact h (by rw [stripRight, hnil]; rfl)
  rw [stripRight, List.reverse_append, List.dropWhile_append,
    if_neg (by simpa using hd), List.reverse_append, List.reverse_reverse,
    stripRight]

theorem stripRight_append_all_ws {y : List Char} (x : List Char)
    (h : ∀ c ∈ y, c.isWhitespace = true) :
    stripRight (x ++ y) = stripRight x := by
  rw [stripRight, List.reverse_append, List.dropWhile_append,
    if_pos (by
      simp only [List.isEmpty_iff]
      exact List.dropWhile_eq_nil_iff.mpr
        fun c hc => h c (List.mem_reverse.mp hc)),
    stripRight]

theorem stripRight_eq_self_of_all_not_ws {w : List Char}
    (h : ∀ d ∈ w, d.isWhitespace = false) : stripRight w = w := by
  rw [stripRight,
    dropWhile_eq_self_of_headIsWs (by
      cases hw : w.reverse with
      | nil => rfl
      | cons a t =>
        have ha : a ∈ w := List.mem_reverse.mp (hw ▸ List.mem_cons_self a t)
        simpa [headIsWs] using h a ha),
    List.reverse_reverse]

theorem strip_cons_ws {w : Char} (hw : w.isWhitespace = true)
    (x : List Char) : strip (w :: x) = strip x := by
  rw [strip, strip, stripLeft, stripLeft, List.dropWhile_cons, if_pos hw]

theorem tokens_word_append {r : List Char}
    (hr : r = [] ∨ headIsWs r = true) :
    ∀ w : List Char, w ≠ [] → (∀ d ∈ w, d.isWhitespace = false) →
      tokens (w ++ r) = w :: tokens r := by
  intro w
  induction w with
  | nil => intro h _; exact absurd rfl h
  | cons x w' ih =>
    intro _ hall
    have hx : x.isWhitespace = false := hall x (List.mem_cons_self x w')
    cases w' with
    | nil =>
      cases r with
      | nil => simp [tokens, hx]
      | cons d r₀ =>
        have hd : d.isWhitespace = true := by
          rcases hr with hr | hr
          · exact absurd hr (by simp)
          · simpa [headIsWs] using hr
        rw [List.singleton_append, tokens_cons_cons_ws _ hx hd]
    | cons y w'' =>
      have hy : y.isWhitespace = false :=
        hall y (List.mem_cons_of_mem x (List.mem_cons_self y w''))
      have hihw : tokens (y :: (w'' ++ r)) = (y :: w'') :: tokens r :=
        ih (by simp) fun d hd => hall d (List.mem_cons_of_mem x hd)
      show tokens (x :: y :: (w'' ++ r)) = (x :: y :: w'') :: tokens r
      rw [tokens_cons_cons_not_ws (w'' ++ r) hx hy, hihw]
      simp

/-- The spec's whitespace collapse rebuilds the string as its maximal
non-whitespace runs joined by single spaces. -/
theorem collapseWhitespaceSpec_eq_intercalate_tokens (s : List Char) :
    collapseWhitespaceSpec s = List.intercalate [' '] (tokens s) := by
  suffices h : ∀ n (t : List Char), t.length ≤ n →
      collapseWhitespaceSpec t = List.intercalate [' '] (tokens t) from
    h s.length s le_rfl
  intro n
  induction n with
  | zero =>
    intro t hlen
    obtain rfl : t = [] := List.length_eq_zero.mp (Nat.le_zero.mp hlen)
    rfl
  | succ n ih =>
    intro t hlen
    cases t with
    | nil => rfl
    | cons c s' =>
      have hs' : s'.length ≤ n := by
        simpa using hlen
      by_cases hc : c.isWhitespace = true
      · have hdrop : (s'.dropWhile Char.isWhitespace).length ≤ n :=
          le_trans (List.dropWhile_suffix _).sublist.length_le hs'
        rw [tokens_cons_ws _ hc, ← tokens_dropWhile_ws s', ← ih _ hdrop]
        rw [collapseWhitespaceSpec, collapseRuns_cons_ws s' c hc,
          collapseWhitespaceSpec, strip_cons_ws (by decide)]
      · have hc' : c.isWhitespace = false := Bool.eq_false_iff.mpr hc
        have hsplit : c :: s'
            = (c :: s'.takeWhile (fun d => !d.isWhitespace))
              ++ s'.dropWhile (fun d => !d.isWhitespace) := by
          rw [List.cons_append, List.takeWhile_append_dropWhile]
        set w : List Char := c :: s'.takeWhile (fun d => !d.isWhitespace)
          with hw
        set r : List Char := s'.dropWhile (fun d => !d.isWhitespace) with hrr
        have hallw : ∀ d ∈ w, d.isWhitespace = false := by
          intro d hd
          rcases List.mem_cons.mp hd with rfl | hd
          · exact hc'
          · have := List.mem_takeWhile_imp hd
            simpa using this
        have hrshape : r = [] ∨ headIsWs r = true := by
          cases hx : r with
          | nil => exact Or.inl rfl
          | cons d r₀ =>
            right
            have := List.head?_dropWhile_not (fun d => !d.isWhitespace) s'
            rw [← hrr, hx] at this
            simpa [headIsWs] using this
        have htok : tokens (c :: s') = w :: tokens r := by
          rw [hsplit]
          exact tokens_word_append hrshape w (by simp) hallw
        have hcrw : collapseRuns (c :: s') = w ++ collapseRuns r := by
          rw [hsplit]
          exact collapseRuns_word_append r w hallw
        have hstripL : ∀ z : List Char, headIsWs z = false →
            strip z = stripRight z := by
          intro z hz
          rw [strip, stripLeft, dropWhile_eq_self_of_headIsWs hz]
        cases hr0 : r with
        | nil =>
          rw [collapseWhitespaceSpec, hcrw, hr0]
          rw [show collapseRuns [] = [] from rfl, List.append_nil]
          rw [hstripL w (by simp [hw, headIsWs, hc'])]
          rw [stripRight_eq_self_of_all_not_ws hallw]
          rw [htok, hr0]
          rw [show tokens ([] : List Char) = [] from rfl, intercalate_single]
        | cons d r₀ =>
          have hd : d.isWhitespace = true := by
            rcases hrshape with hsh | hsh
            · rw [hr0] at hsh
              exact absurd hsh (by simp)
            · rw [hr0] at hsh
              simpa [headIsWs] using hsh
          have hcrr : collapseRuns r
              = ' ' :: collapseRuns (r₀.dropWhile Char.isWhitespace) := by
            rw [hr0]
            exact collapseRuns_cons_ws r₀ d hd
          set r₂ : List Char := r₀.dropWhile Char.isWhitespace with hr₂
          have htokr : tokens r = tokens r₂ := by
            rw [hr0, tokens_cons_ws _ hd, hr₂, tokens_dropWhile_ws]
          have hlenr₂ : r₂.length ≤ n := by
            have h1 : r₂.length ≤ r₀.length :=
              (List.dropWhile_suffix _).sublist.length_le
            have h2 : r.length ≤ s'.length :=
              (List.dropWhile_suffix _).sublist.length_le
            rw [hr0] at h2
            simp only [List.length_cons] at h2
            omega
          cases hr₂0 : r₂ with
          | nil =>
            have hws : ∀ c' ∈ ([' '] : List Char), c'.isWhitespace = true := by
              intro c' hc''
              simp only [List.mem_singleton] at hc''
              subst hc''
              decide
            rw [collapseWhitespaceSpec, hcrw, hcrr, hr₂0]
            rw [show collapseRuns ([] : List Char) = [] from rfl]
            rw [hstripL _ (by simp [hw, headIsWs, hc'])]
            rw [show w ++ [' '] = w ++ [' '] from rfl,
              stripRight_append_all_ws w hws]
            rw [stripRight_eq_self_of_all_not_ws hallw]
            rw [htok, htokr, hr₂0]
            rw [show tokens ([] : List Char) = [] from rfl, intercalate_single]
          | cons e r₃ =>
            have he : e.isWhitespace = false := by
              have := List.head?_dropWhile_not Char.isWhitespace r₀
              rw [← hr₂, hr₂0] at this
              simpa using this
            have hz : collapseRuns r₂ = e :: collapseRuns r₃ := by
              rw [hr₂0]
              exact collapseRuns_cons_not_ws r₃ he
            have hzne : stripRight (collapseRuns r₂) ≠ [] := by
              rw [Ne, stripRight_eq_nil_iff]
              intro hall
              have := hall e (by rw [hz]; exact List.mem_cons_self e _)
              rw [he] at this
              exact Bool.noConfusion this
            have hyne : stripRight (' ' :: collapseRuns r₂) ≠ [] := by
              rw [show (' ' :: collapseRuns r₂)
                  = [' '] ++ collapseRuns r₂ from rfl,
                stripRight_append_of_ne_nil [' '] hzne]
              simp
            rw [collapseWhitespaceSpec, hcrw, hcrr]
            rw [hstripL _ (by simp [hw, headIsWs, hc'])]
            rw [show w ++ ' ' :: collapseRuns r₂
                = w ++ (' ' :: collapseRuns r₂) from rfl,
              stripRight_append_of_ne_nil w hyne]
            rw [show (' ' :: collapseRuns r₂)
                = [' '] ++ collapseRuns r₂ from rfl,
              stripRight_append_of_ne_nil [' '] hzne]
            have hspecr₂ : strip (collapseRuns r₂)
                = List.intercalate [' '] (tokens r₂) := ih r₂ hlenr₂
            rw [hstripL _ (by rw [hz]; simpa [headIsWs] using he)] at hspecr₂
            rw [hspecr₂]
            rw [htok, htokr]
            have htokne : tokens r₂ ≠ [] := by
              rw [hr₂0]
              exact tokens_ne_nil _ he
            rw [intercalate_cons₂ _ _ htokne]
            simp

/-- A cleaned chunk containing neither tab nor carriage return is rebuilt
from its maximal non-whitespace runs joined by single spaces. -/
theorem goodChunk_intercalate_tokens : ∀ (n : Nat) (c : List Char),
    c.length ≤ n → goodChunk c → '\t' ∉ c → '\r' ∉ c →
    tokens c ≠ [] ∧ c = List.intercalate [' '] (tokens c) := by
  intro n
  induction n with
  | zero =>
    intro c hlen hg _ _
    obtain rfl : c = [] := List.length_eq_zero.mp (Nat.le_zero.mp hlen)
    exact absurd rfl hg.1
  | succ n ih =>
    intro c hlen hg ht hcr
    obtain ⟨c₀, s', rfl⟩ : ∃ c₀ s', c = c₀ :: s' := by
      cases c with
      | nil => exact absurd rfl hg.1
      | cons c₀ s' => exact ⟨c₀, s', rfl⟩
    have hc₀ : c₀.isWhitespace = false := hg.2.1
    have hsplit : c₀ :: s'
        = (c₀ :: s'.takeWhile (fun d => !d.isWhitespace))
          ++ s'.dropWhile (fun d => !d.isWhitespace) := by
      rw [List.cons_append, List.takeWhile_append_dropWhile]
    set w : List Char := c₀ :: s'.takeWhile (fun d => !d.isWhitespace) with hw
    set r : List Char := s'.dropWhile (fun d => !d.isWhitespace) with hrdef
    have hallw : ∀ d ∈ w, d.isWhitespace = false := by
      intro d hd
      rcases List.mem_cons.mp hd with rfl | hd
      · exact hc₀
      · simpa using List.mem_takeWhile_imp hd
    have hrsuffix : r <:+ (c₀ :: s') :=
      (List.dropWhile_suffix _).trans (List.suffix_cons c₀ s')
    have hrshape : r = [] ∨ headIsWs r = true := by
      cases hx : r with
      | nil => exact Or.inl rfl
      | cons d r₀ =>
        right
        have hh := List.head?_dropWhile_not (fun d => !d.isWhitespace) s'
        rw [← hrdef, hx] at hh
        simpa [headIsWs] using hh
    have htok : tokens (c₀ :: s') = w :: tokens r := by
      rw [hsplit]
      exact tokens_word_append hrshape w (by simp) hallw
    cases hr0 : r with
    | nil =>
      rw [htok, hr0]
      refine ⟨by simp, ?_⟩
      rw [show tokens ([] : List Char) = [] from rfl, intercalate_single]
      conv_lhs => rw [hsplit, hr0]
      rw [List.append_nil]
    | cons d r₀ =>
      have hd_ws : d.isWhitespace = true := by
        rcases hrshape with hsh | hsh
        · rw [hr0] at hsh
          exact absurd hsh (by simp)
        · rw [hr0] at hsh
          simpa [headIsWs] using hsh
      have hd_mem : d ∈ c₀ :: s' :=
        hrsuffix.subset (hr0 ▸ List.mem_cons_self d r₀)
      obtain rfl : d = ' ' := by
        have hnt : ¬ d = '\t' := fun h => ht (h ▸ hd_mem)
        have hnn : ¬ d = '\n' := fun h => hg.2.2.2.1 (h ▸ hd_mem)
        have hnr : ¬ d = '\r' := fun h => hcr (h ▸ hd_mem)
        simp [Char.isWhitespace] at hd_ws
        tauto
      have hr₀ne : r₀ ≠ [] := by
        intro h0
        have hc' : c₀ :: s' = w ++ [' '] := by
          rw [hsplit, hr0, h0]
        have hrev : headIsWs (c₀ :: s').reverse = true := by
          rw [hc', List.reverse_append]
          rfl
        rw [hg.2.2.1] at hrev
        exact Bool.noConfusion hrev
      obtain ⟨e, r₁, rfl⟩ : ∃ e r₁, r₀ = e :: r₁ := by
        cases r₀ with
        | nil => exact absurd rfl hr₀ne
        | cons e r₁ => exact ⟨e, r₁, rfl⟩
      have hchainr : noDoubleSpace r := hg.2.2.2.2.suffix hrsuffix
      have hene : ¬ e = ' ' := by
        intro he'
        rw [hr0] at hchainr
        exact (List.chain'_cons.mp hchainr).1 ⟨rfl, he'⟩
      have he_mem : e ∈ c₀ :: s' :=
        hrsuffix.subset
          (hr0 ▸ List.mem_cons_of_mem ' ' (List.mem_cons_self e r₁))
      have he : e.isWhitespace = false := by
        cases hx : e.isWhitespace with
        | false => rfl
        | true =>
          exfalso
          simp [Char.isWhitespace] at hx
          have hx' : e = ' ' ∨ e = '\t' ∨ e = '\r' ∨ e = '\n' := by tauto
          rcases hx' with h | h | h | h
          · exact hene h
          · exact ht (h ▸ he_mem)
          · exact hcr (h ▸ he_mem)
          · exact hg.2.2.2.1 (h ▸ he_mem)
      have hceq : c₀ :: s' = (w ++ [' ']) ++ (e :: r₁) := by
        rw [hsplit, hr0]
        simp
      have hgr : goodChunk (e :: r₁) := by
        refine ⟨by simp, by simpa [headIsWs] using he, ?_, ?_, ?_⟩
        · have hrev : headIsWs (c₀ :: s').reverse = false := hg.2.2.1
          rw [hceq, List.reverse_append] at hrev
          rw [headIsWs_append_left (by simp)] at hrev
          exact hrev
        · intro hmem
          exact hg.2.2.2.1 (hrsuffix.subset
            (hr0 ▸ List.mem_cons_of_mem ' ' hmem))
        · rw [hr0] at hchainr
          exact (List.chain'_cons.mp hchainr).2
      have hte : '\t' ∉ e :: r₁ := fun hm =>
        ht (hrsuffix.subset (hr0 ▸ List.mem_cons_of_mem ' ' hm))
      have hre : '\r' ∉ e :: r₁ := fun hm =>
        hcr (hrsuffix.subset (hr0 ▸ List.mem_cons_of_mem ' ' hm))
      have hlen' : (e :: r₁).length ≤ n := by
        have hlc : (c₀ :: s').length
            = w.length + (' ' :: e :: r₁).length := by
          conv_lhs => rw [hsplit, hr0]
          rw [List.length_append]
        have hwlen : 1 ≤ w.length := by
          rw [hw]
          simp
        simp only [List.length_cons] at hlc hlen ⊢
        omega
      obtain ⟨hne', heq'⟩ := ih (e :: r₁) hlen' hgr hte hre
      have htokr : tokens r = tokens (e :: r₁) := by
        rw [hr0]
        exact tokens_cons_ws _ (by decide)
      rw [htok, htokr]
      refine ⟨by simp, ?_⟩
      rw [intercalate_cons₂ _ _ hne', ← heq']
      conv_lhs => rw [hsplit, hr0]
      simp

theorem tokens_intercalate_ws {w : Char} (hw : w.isWhitespace = true)
    (ps : List (List Char)) :
    tokens (List.intercalate [w] ps) = ps.flatMap tokens := by
  induction ps with
  | nil => rfl
  | cons p ps' ih =>
    cases ps' with
    | nil =>
      rw [intercalate_single, List.flatMap_cons, List.flatMap_nil,
        List.append_nil]
    | cons q t =>
      rw [intercalate_cons₂ _ _ (by simp), List.append_assoc,
        show ([w] ++ List.intercalate [w] (q :: t))
          = w :: List.intercalate [w] (q :: t) from rfl,
        tokens_append_ws hw, ih, List.flatMap_cons]
      simp [List.flatMap_cons]

theorem tokens_intercalate_double_space (ps : List (List Char)) :
    tokens (List.intercalate [' ', ' '] ps) = ps.flatMap tokens := by
  induction ps with
  | nil => rfl
  | cons p ps' ih =>
    cases ps' with
    | nil =>
      rw [intercalate_single, List.flatMap_cons, List.flatMap_nil,
        List.append_nil]
    | cons q t =>
      rw [intercalate_cons₂ _ _ (by simp), List.append_assoc,
        show ([' ', ' '] ++ List.intercalate [' ', ' '] (q :: t))
          = ' ' :: (' ' :: List.intercalate [' ', ' '] (q :: t)) from rfl,
        tokens_append_ws (by decide), tokens_cons_ws _ (by decide), ih,
        List.flatMap_cons]
      simp [List.flatMap_cons]

theorem flatMap_congr_fun {α β : Type} {l : List α} {f g : α → List β}
    (h : ∀ x ∈ l, f x = g x) : l.flatMap f = l.flatMap g := by
  induction l with
  | nil => rfl
  | cons x l' ih =>
    rw [List.flatMap_cons, List.flatMap_cons, h x (List.mem_cons_self x l'),
      ih fun y hy => h y (List.mem_cons_of_mem x hy)]

theorem flatMap_tokens_filter_ne_nil (l : List (List Char)) :
    (l.filter fun c => c ≠ []).flatMap tokens = l.flatMap tokens := by
  induction l with
  | nil => rfl
  | cons c l' ih =>
    by_cases hc : c = []
    · subst hc
      rw [List.filter_cons, if_neg (by simp), List.flatMap_cons,
        show tokens [] = [] from rfl, List.nil_append, ih]
    · rw [List.filter_cons, if_pos (by simpa using hc), List.flatMap_cons,
        List.flatMap_cons, ih]

theorem tokens_cleanChunks (s : List Char) :
    (cleanChunks s).flatMap tokens = tokens s := by
  rw [cleanChunks, flatMap_tokens_filter_ne_nil, List.flatMap_assoc,
    List.flatMap_map]
  have hline : ∀ l : List Char,
      ((splitDoubleSpace (strip l)).map strip).flatMap tokens
        = tokens l := by
    intro l
    rw [List.flatMap_map]
    rw [flatMap_congr_fun fun p _ => tokens_strip p]
    rw [← tokens_intercalate_double_space, intercalate_splitDoubleSpace,
      tokens_strip]
  rw [flatMap_congr_fun fun l _ => hline l]
  rw [← tokens_intercalate_ws (by decide : ('\n').isWhitespace = true),
    intercalate_splitOnChar]

theorem mem_cleanChunks_subset {s c : List Char} (hc : c ∈ cleanChunks s) :
    c ⊆ s := by
  rw [cleanChunks, List.mem_filter] at hc
  obtain ⟨hmem, _⟩ := hc
  rw [List.mem_flatMap] at hmem
  obtain ⟨l, hl, hcl⟩ := hmem
  rw [List.mem_map] at hl
  obtain ⟨l₀, hl₀, rfl⟩ := hl
  rw [List.mem_map] at hcl
  obtain ⟨p, hp, rfl⟩ := hcl
  exact fun x hx => mem_splitOnChar_subset hl₀
    (strip_subset l₀ (mem_splitDoubleSpace_subset hp (strip_subset p hx)))

theorem intercalate_append₂ (sep : List Char) {A B : List (List Char)}
    (hA : A ≠ []) (hB : B ≠ []) :
    List.intercalate sep (A ++ B)
      = List.intercalate sep A ++ sep ++ List.intercalate sep B := by
  induction A with
  | nil => exact absurd rfl hA
  | cons x A' ih =>
    cases A' with
    | nil =>
      rw [List.singleton_append, intercalate_cons₂ _ _ hB, intercalate_single]
    | cons y A'' =>
      rw [List.cons_append, intercalate_cons₂ _ _ (by simp),
        intercalate_cons₂ _ _ (by simp), ih (by simp)]
      simp [List.append_assoc]

theorem intercalate_flatMap_tokens {cs : List (List Char)}
    (h : ∀ c ∈ cs, tokens c ≠ [] ∧ c = List.intercalate [' '] (tokens c)) :
    List.intercalate [' '] cs
      = List.intercalate [' '] (cs.flatMap tokens) := by
  induction cs with
  | nil => rfl
  | cons c cs' ih =>
    cases cs' with
    | nil =>
      rw [intercalate_single, List.flatMap_cons, List.flatMap_nil,
        List.append_nil]
      exact (h c (List.mem_cons_self c [])).2
    | cons d cs'' =>
      have hc := h c (List.mem_cons_self _ _)
      have hd := h d (List.mem_cons_of_mem c (List.mem_cons_self _ _))
      have hflat_ne : (d :: cs'').flatMap tokens ≠ [] := by
        rw [List.flatMap_cons]
        intro hnil
        exact hd.1 (List.append_eq_nil.mp hnil).1
      rw [intercalate_cons₂ _ _ (by simp), List.flatMap_cons,
        intercalate_append₂ [' '] hc.1 hflat_ne,
        ← ih fun c' hc' => h c' (List.mem_cons_of_mem c hc'), ← hc.2]

/-- On tab- and carriage-return-free text, the code's line-based cleanup
rebuilds the string as its maximal non-whitespace runs joined by single
spaces. -/
theorem cleanText_eq_intercalate_tokens {s : List Char} (ht : '\t' ∉ s)
    (hr : '\r' ∉ s) : cleanText s = List.intercalate [' '] (tokens s) := by
  rw [cleanText_eq_intercalate,
    intercalate_flatMap_tokens fun c hc =>
      goodChunk_intercalate_tokens c.length c le_rfl
        (mem_cleanChunks_good hc)
        (fun hm => ht (mem_cleanChunks_subset hc hm))
        (fun hm => hr (mem_cleanChunks_subset hc hm)),
    tokens_cleanChunks]

/-- On tab- and carriage-return-free text, the code's line-based cleanup
agrees with the spec's whitespace collapse. -/
theorem cleanText_eq_collapseWhitespaceSpec {s : List Char} (ht : '\t' ∉ s)
    (hr : '\r' ∉ s) : cleanText s = collapseWhitespaceSpec s := by
  rw [cleanText_eq_intercalate_tokens ht hr,
    collapseWhitespaceSpec_eq_intercalate_tokens]

/-- C7 counterexample: a document whose visible text holds a tab between two
words keeps the tab in the `content` field, whereas collapsing every maximal
whitespace sequence to a single space would replace it. -/
theorem content_counterexample_tab_preserved :
    (scrape_website (.response 200 tabDoc)).contentText = "a\tb".data
    ∧ collapseWhitespaceSpec "a\tb".data = "a b".data
    ∧ "a\tb".data ≠ "a b".data :=
  ⟨by decide, by decide, by decide⟩

/-- C7 (amended): the `content` field of a successful fetch is the visible
text cleaned by the line-based algorithm of `app.py:146-148` (strip each
line, split lines at double spaces, strip and drop empty fragments, join with
single spaces); on text whose whitespace consists of spaces and newlines only
— no tab, no carriage return — this equals the spec's collapse of every
maximal whitespace sequence to a single space, but a tab between two words is
preserved rather than collapsed. -/
theorem content_is_line_based_cleanup (status : Nat) (doc : Doc)
    (h : ¬ isHTTPErrorStatus status) :
    (scrape_website (.response status doc)).contentText
      = cleanText (getTextDoc (scrubList badTags doc))
    ∧ (∀ raw : List Char, '\t' ∉ raw → '\r' ∉ raw →
        cleanText raw = collapseWhitespaceSpec raw) := by
  constructor
  · simp only [scrape_website, if_neg h, FetchResult.contentText]
  · exact fun raw ht hr => cleanText_eq_collapseWhitespaceSpec ht hr

/-- C7 witness: the cleanup theorem applied to a concrete document and a
concrete tab-free raw text. -/
theorem content_is_line_based_cleanup_witness :
    (scrape_website (.response 200 headingOrderDoc)).contentText
      = cleanText (getTextDoc (scrubList badTags headingOrderDoc))
    ∧ cleanText " Hello \n  World ".data
      = collapseWhitespaceSpec " Hello \n  World ".data :=
  ⟨(content_is_line_based_cleanup 200 headingOrderDoc (by decide)).1,
   (content_is_line_based_cleanup 200 headingOrderDoc (by decide)).2
     " Hello \n  World ".data (by decide) (by decide)⟩

end MarketingAnalyzer
